import Mathlib

/-!
# Verification of the superconf line-oriented configuration parser

A shallow embedding of `src/lib.rs` of the `superconf` crate.  Strings are
modelled as `List Char`; the Rust `HashMap<String, SuperValue>` is modelled as
an association list with unique keys (only lookup and single-key insertion are
ever used by the parser, so the association list refines the hash map).

The embedding follows the source function by function:
* `rustLines` models Rust's `str::lines` (split on newline, strip a trailing
  carriage return from lines that were terminated by a newline, and a final
  line ending is optional);
* `lexLine` / `lex_str` model the `lex_str` lexer;
* `lineStep` / `runLine` model the per-line token loop inside
  `parse_custom_sep` (the `break` on a comment token is modelled by making the
  comment state absorbing, which is observationally identical because the Rust
  loop reads no further tokens once it breaks);
* `resolveLine` models the post-loop key/value resolution of a line;
* `parseLines` models the outer loop over lines together with the
  duplicate-key check of `HashMap::insert`;
* `parse_custom_sep`, `parse_str`, `parse_string` are the public entry points.
-/

namespace Superconf

/-- The possible value of the config file (`SuperValue` in the source). -/
inductive SuperValue where
  | Single : List Char → SuperValue
  | List : List (List Char) → SuperValue
deriving DecidableEq, Repr

/-- Primary error enum for superconf (`SuperError` in the source).  The
`io::Error` payload of `IOError` is irrelevant to the pure parser and is not
modelled. -/
inductive SuperError where
  | NoKey : SuperError
  | NoValue : SuperError
  | ElementExists : SuperValue → SuperError
  | IOError : SuperError
deriving DecidableEq, Repr

/-- The type of token for the mini lexer (`TokenType` in the source). -/
inductive TokenType where
  | Character : Char → TokenType
  | Seperator : TokenType
  | Backslash : TokenType
  | Comment : TokenType
deriving DecidableEq, Repr

/-- The output mapping: an association list refining `HashMap<String, SuperValue>`. -/
abbrev ConfMap := List (List Char × SuperValue)

/-- Strip one trailing carriage return, as Rust's `str::lines` does from every
line that was terminated by a newline. -/
def stripTrailingCR (l : List Char) : List Char :=
  if l.getLast? = some '\r' then l.dropLast else l

/-- Split on the newline character, keeping empty segments (the model of
`str::split` at `'\n'`); the result is always non-empty. -/
def splitNewline : List Char → List (List Char)
  | [] => [[]]
  | c :: rest =>
    if c = '\n' then [] :: splitNewline rest
    else
      match splitNewline rest with
      | [] => [[c]]
      | l :: ls => (c :: l) :: ls

/-- Rust's `str::lines`: every segment except the last was newline-terminated
and has one trailing `'\r'` stripped; an empty final segment (a trailing final
line ending) produces no extra line, while a non-empty final segment is kept
verbatim. -/
def rustLines (s : List Char) : List (List Char) :=
  let segs := splitNewline s
  let body := (segs.dropLast).map stripTrailingCR
  match segs.getLast? with
  | some [] => body
  | some l => body ++ [l]
  | none => body

/-- Token classification of one character, parameterized by the separator:
the separator test comes first, then `'#'`, then `'\'`, then plain
characters — exactly the `if`/`match` of the source lexer. -/
def classifyChar (seperator : Char) (c : Char) : TokenType :=
  if c = seperator then TokenType.Seperator
  else if c = '#' then TokenType.Comment
  else if c = '\\' then TokenType.Backslash
  else TokenType.Character c

/-- Lex one line: one token per character, in order. -/
def lexLine (seperator : Char) (line : List Char) : List TokenType :=
  line.map (classifyChar seperator)

/-- Lexes input into a list of per-line token lists (`lex_str` in the source). -/
def lex_str (conf : List Char) (seperator : Char) : List (List TokenType) :=
  (rustLines conf).map (lexLine seperator)

/-- The per-line parser state: `done ++ [cur]` is the Rust `buffer` vector
(`cur` is the last, currently accumulating, field), plus the two flags. -/
structure LineState where
  done : List (List Char)
  cur : List Char
  ignore_special : Bool
  is_comment : Bool
deriving DecidableEq, Repr

/-- One step of the per-line token loop of `parse_custom_sep`.  A set
`is_comment` flag absorbs every further token, modelling the `break`. -/
def lineStep (s : LineState) (t : TokenType) : LineState :=
  if s.is_comment then s
  else
    match t with
    | TokenType.Comment => { s with is_comment := true }
    | TokenType.Backslash => { s with ignore_special := !s.ignore_special }
    | TokenType.Seperator =>
      if s.ignore_special then
        { s with cur := s.cur ++ [' '], ignore_special := false }
      else if s.cur ≠ [] then
        { s with done := s.done ++ [s.cur], cur := [] }
      else s
    | TokenType.Character c => { s with cur := s.cur ++ [c] }

/-- The initial per-line state: `buffer = vec![String::new()]`, both flags
clear. -/
def initState : LineState := ⟨[], [], false, false⟩

/-- Run the per-line token loop from the initial state. -/
def runLine (ts : List TokenType) : LineState :=
  ts.foldl lineStep initState

/-- The value builder: the `match buffer.len()` of the source after the key
has been removed.  Zero remaining fields: no value (the line is skipped, the
dead `_expect_new_level` flag is not modelled because nothing reads it); one
field: `Single`; two or more: `List` of all fields in order. -/
def buildValue (values : List (List Char)) : Option SuperValue :=
  match values with
  | [] => none
  | [v] => some (SuperValue.Single v)
  | vs => some (SuperValue.List vs)

/-- Post-loop resolution of one line: a comment line yields nothing; otherwise
the first field of the buffer `done ++ [cur]` is removed as the key
(`buffer.remove(0)` in the source: the key is `cur` itself exactly when no
field was completed) and the remaining fields decide the value shape. -/
def resolveLine (s : LineState) : Option (List Char × SuperValue) :=
  if s.is_comment then none
  else
    match s.done with
    | [] => Option.map (fun v => (s.cur, v)) (buildValue [])
    | key :: ds => Option.map (fun v => (key, v)) (buildValue (ds ++ [s.cur]))

/-- Lookup in the association-list model of the hash map. -/
def lookupMap (m : ConfMap) (k : List Char) : Option SuperValue :=
  match m with
  | [] => none
  | (k₂, v) :: rest => if k₂ = k then some v else lookupMap rest k

/-- The outer loop of `parse_custom_sep`: process each line, skip lines that
resolve to nothing, and on an insertion whose key already exists abort with
`ElementExists` carrying the previously stored value. -/
def parseLines : List (List TokenType) → ConfMap → Except SuperError ConfMap
  | [], output => Except.ok output
  | tl :: rest, output =>
    match resolveLine (runLine tl) with
    | none => parseLines rest output
    | some (key, v) =>
      match lookupMap output key with
      | some element => Except.error (SuperError.ElementExists element)
      | none => parseLines rest (output ++ [(key, v)])

/-- `parse_custom_sep`: parse with a custom separator character. -/
def parse_custom_sep (conf : String) (seperator : Char) :
    Except SuperError ConfMap :=
  parseLines (lex_str conf.toList seperator) []

/-- `parse_str`: parse with the default separator, a space. -/
def parse_str (conf : String) : Except SuperError ConfMap :=
  parse_custom_sep conf ' '

/-- `parse_string`: alias of `parse_str` taking an owned string. -/
def parse_string (conf : String) : Except SuperError ConfMap :=
  parse_custom_sep conf ' '

/-- A value avoids a character when none of its strings contains it. -/
def valueAvoids (c : Char) : SuperValue → Prop
  | SuperValue.Single s => c ∉ s
  | SuperValue.List l => ∀ s ∈ l, c ∉ s

instance (c : Char) (v : SuperValue) : Decidable (valueAvoids c v) := by
  cases v <;> simp only [valueAvoids] <;> infer_instance

/-! ## Basic lemmas about the per-line state machine -/

theorem lineStep_of_comment (s : LineState) (t : TokenType)
    (h : s.is_comment = true) : lineStep s t = s := by
  simp [lineStep, h]

theorem foldl_of_comment (ts : List TokenType) (s : LineState)
    (h : s.is_comment = true) : ts.foldl lineStep s = s := by
  induction ts with
  | nil => rfl
  | cons t ts ih => simpa [lineStep_of_comment s t h] using ih

theorem foldl_comment_of_mem (ts : List TokenType) (s : LineState)
    (h : TokenType.Comment ∈ ts) : (ts.foldl lineStep s).is_comment = true := by
  induction ts generalizing s with
  | nil => cases h
  | cons t ts ih =>
    rcases List.mem_cons.mp h with rfl | hmem
    · by_cases hc : s.is_comment = true
      · simp [foldl_of_comment, lineStep_of_comment, hc]
      · have hstep : lineStep s TokenType.Comment = { s with is_comment := true } := by
          simp [lineStep, hc]
        simp [List.foldl_cons, hstep, foldl_of_comment]
    · exact ih (lineStep s t) hmem

/-- Every field moved into `done` by a step was either already there or is the
previous non-empty current field. -/
theorem lineStep_done_sub (s : LineState) (t : TokenType) :
    ∀ f ∈ (lineStep s t).done, f ∈ s.done ∨ (f = s.cur ∧ s.cur ≠ []) := by
  intro f hf
  unfold lineStep at hf
  split at hf
  · exact Or.inl hf
  · cases t with
    | Comment => exact Or.inl hf
    | Backslash => exact Or.inl hf
    | Character c => exact Or.inl hf
    | Seperator =>
      simp only at hf
      split at hf
      · exact Or.inl hf
      · split at hf
        · rename_i hcur
          simp only [List.mem_append, List.mem_singleton] at hf
          rcases hf with hf | rfl
          · exact Or.inl hf
          · exact Or.inr ⟨rfl, hcur⟩
        · exact Or.inl hf

/-- Completed fields are never empty (given they start out so). -/
theorem foldl_done_nonempty (ts : List TokenType) (s : LineState)
    (h : ∀ f ∈ s.done, f ≠ []) :
    ∀ f ∈ (ts.foldl lineStep s).done, f ≠ [] := by
  induction ts generalizing s with
  | nil => exact h
  | cons t ts ih =>
    refine ih (lineStep s t) ?_
    intro f hf
    rcases lineStep_done_sub s t f hf with hmem | ⟨rfl, hne⟩
    · exact h f hmem
    · exact hne

/-- A successful `buildValue` comes from one field (`Single`) or at least two
(`List` of exactly those fields). -/
theorem buildValue_some_cases (values : List (List Char)) (v : SuperValue)
    (h : buildValue values = some v) :
    (∃ w, values = [w] ∧ v = SuperValue.Single w) ∨
      (v = SuperValue.List values ∧ 2 ≤ values.length) := by
  cases values with
  | nil => cases h
  | cons a as =>
    cases as with
    | nil =>
      refine Or.inl ⟨a, rfl, ?_⟩
      simpa [buildValue] using h.symm
    | cons b bs =>
      refine Or.inr ⟨?_, by simp⟩
      simpa [buildValue] using h.symm

/-- What a successful line resolution tells about the final state: the line is
not a comment, the key is the first completed field, and the value is built
from the remaining fields. -/
theorem resolveLine_some_cases (s : LineState) (key : List Char) (v : SuperValue)
    (h : resolveLine s = some (key, v)) :
    s.is_comment = false ∧
      ∃ ds, s.done = key :: ds ∧ buildValue (ds ++ [s.cur]) = some v := by
  unfold resolveLine at h
  split at h
  · cases h
  · rename_i hc
    refine ⟨by simpa using hc, ?_⟩
    cases hd : s.done with
    | nil =>
      rw [hd] at h
      simp [buildValue] at h
    | cons k ds =>
      rw [hd] at h
      rcases Option.map_eq_some'.mp h with ⟨w, hw, hkv⟩
      obtain ⟨rfl, rfl⟩ := Prod.mk.injEq .. ▸ hkv
      exact ⟨ds, rfl, hw⟩

/-- The only error the line-processing loop can produce is `ElementExists`. -/
theorem parseLines_error_shape (tls : List (List TokenType)) (output : ConfMap)
    (e : SuperError) (h : parseLines tls output = Except.error e) :
    ∃ v, e = SuperError.ElementExists v := by
  induction tls generalizing output with
  | nil => simp [parseLines] at h
  | cons tl rest ih =>
    unfold parseLines at h
    split at h
    · exact ih output h
    · rename_i key v heq
      split at h
      · rename_i element hel
        exact ⟨element, (Except.error.injEq _ _).mp h.symm⟩
      · exact ih _ h

/-- Equation: a comment token on a live line sets the comment flag. -/
theorem lineStep_comment (s : LineState) (hc : s.is_comment = false) :
    lineStep s TokenType.Comment = { s with is_comment := true } := by
  simp [lineStep, hc]

/-- Equation: a backslash token on a live line flips `ignore_special`. -/
theorem lineStep_backslash (s : LineState) (hc : s.is_comment = false) :
    lineStep s TokenType.Backslash =
      { s with ignore_special := !s.ignore_special } := by
  simp [lineStep, hc]

/-- Equation: a character token on a live line appends the character to the
current field and changes nothing else — in particular `ignore_special` is
left as it is. -/
theorem lineStep_character (s : LineState) (c : Char)
    (hc : s.is_comment = false) :
    lineStep s (TokenType.Character c) = { s with cur := s.cur ++ [c] } := by
  simp [lineStep, hc]

/-- Equation: an escaped separator appends a hard-coded space `' '` to the
current field and clears `ignore_special`. -/
theorem lineStep_sep_escaped (s : LineState) (hc : s.is_comment = false)
    (hi : s.ignore_special = true) :
    lineStep s TokenType.Seperator =
      { s with cur := s.cur ++ [' '], ignore_special := false } := by
  simp [lineStep, hc, hi]

/-- Equation: an unescaped separator after a non-empty current field completes
that field and opens a fresh empty one. -/
theorem lineStep_sep_push (s : LineState) (hc : s.is_comment = false)
    (hi : s.ignore_special = false) (hcur : s.cur ≠ []) :
    lineStep s TokenType.Seperator =
      { s with done := s.done ++ [s.cur], cur := [] } := by
  simp [lineStep, hc, hi, hcur]

/-- An unescaped separator is inert while the current field is empty. -/
theorem lineStep_sep_empty (s : LineState) (hc : s.is_comment = false)
    (hi : s.ignore_special = false) (hcur : s.cur = []) :
    lineStep s TokenType.Seperator = s := by
  simp [lineStep, hc, hi, hcur]

/-- An unescaped separator on a live line always leaves an empty current field
and both flags clear. -/
theorem lineStep_sep_state (s : LineState) (hc : s.is_comment = false)
    (hi : s.ignore_special = false) :
    (lineStep s TokenType.Seperator).cur = [] ∧
      (lineStep s TokenType.Seperator).is_comment = false ∧
      (lineStep s TokenType.Seperator).ignore_special = false := by
  by_cases hcur : s.cur = [] <;> simp [lineStep, hc, hi, hcur]

/-- A line that resolves to nothing is skipped: the remaining lines are
processed against the unchanged output map. -/
theorem parseLines_skip (tl : List TokenType) (rest : List (List TokenType))
    (output : ConfMap) (h : resolveLine (runLine tl) = none) :
    parseLines (tl :: rest) output = parseLines rest output := by
  simp only [parseLines, h]

/-- Keys already present stay non-empty through the whole line loop, so every
key of a successful parse comes either from the initial map or from a
resolved line. -/
theorem parseLines_ok_keys (tls : List (List TokenType)) (output m : ConfMap)
    (hout : ∀ kv ∈ output, kv.1 ≠ [])
    (h : parseLines tls output = Except.ok m) :
    ∀ kv ∈ m, kv.1 ≠ [] := by
  induction tls generalizing output with
  | nil =>
    simp only [parseLines, Except.ok.injEq] at h
    exact h ▸ hout
  | cons tl rest ih =>
    unfold parseLines at h
    split at h
    · exact ih output hout h
    · rename_i key v heq
      split at h
      · cases h
      · refine ih _ ?_ h
        intro kv hkv
        rcases List.mem_append.mp hkv with hkv | hkv
        · exact hout kv hkv
        · obtain ⟨⟨hc, ds, hd, hb⟩⟩ :=
            And.intro (resolveLine_some_cases (runLine tl) key v heq) trivial
          have hkey : key ≠ [] := by
            refine foldl_done_nonempty tl initState (by simp [initState]) key ?_
            rw [show (tl.foldl lineStep initState).done = (runLine tl).done from rfl,
              hd]
            exact List.mem_cons_self _ _
          simp only [List.mem_singleton] at hkv
          rw [hkv]
          exact hkey

/-- Each token of a lexed line that is a plain character differs from the
separator (the separator test comes first in the lexer). -/
theorem lexLine_char_ne (sep : Char) (line : List Char) (c : Char)
    (h : TokenType.Character c ∈ lexLine sep line) : c ≠ sep := by
  rcases List.mem_map.mp h with ⟨d, _, hcd⟩
  unfold classifyChar at hcd
  split at hcd
  · cases hcd
  · split at hcd
    · cases hcd
    · split at hcd
      · cases hcd
      · rename_i hne _ _
        cases hcd
        exact hne

/-- One step preserves "no field mentions the separator", provided the
separator is not the hard-coded space of the escape branch and the token is
not the separator spelled as a plain character. -/
theorem lineStep_avoids (sep : Char) (hsp : sep ≠ ' ') (s : LineState)
    (t : TokenType) (hs : (∀ f ∈ s.done, sep ∉ f) ∧ sep ∉ s.cur)
    (ht : ∀ c, t = TokenType.Character c → c ≠ sep) :
    (∀ f ∈ (lineStep s t).done, sep ∉ f) ∧ sep ∉ (lineStep s t).cur := by
  rcases Bool.eq_false_or_eq_true s.is_comment with hc | hc
  · rw [lineStep_of_comment s t hc]
    exact hs
  · cases t with
    | Comment =>
      rw [lineStep_comment s hc]
      exact hs
    | Backslash =>
      rw [lineStep_backslash s hc]
      exact hs
    | Character c =>
      rw [lineStep_character s c hc]
      refine ⟨hs.1, ?_⟩
      simp only [List.mem_append, List.mem_singleton]
      rintro (h | rfl)
      · exact hs.2 h
      · exact ht sep rfl rfl
    | Seperator =>
      rcases Bool.eq_false_or_eq_true s.ignore_special with hi | hi
      · rw [lineStep_sep_escaped s hc hi]
        refine ⟨hs.1, ?_⟩
        simp only [List.mem_append, List.mem_singleton]
        rintro (h | h)
        · exact hs.2 h
        · exact hsp h
      · by_cases hcur : s.cur = []
        · rw [lineStep_sep_empty s hc hi hcur]
          exact hs
        · rw [lineStep_sep_push s hc hi hcur]
          refine ⟨?_, by simp⟩
          intro f hf
          rcases List.mem_append.mp hf with hf | hf
          · exact hs.1 f hf
          · simp only [List.mem_singleton] at hf
            exact hf ▸ hs.2

/-- The whole line loop preserves "no field mentions the separator". -/
theorem foldl_avoids (sep : Char) (hsp : sep ≠ ' ') (ts : List TokenType)
    (s : LineState) (hts : ∀ c, TokenType.Character c ∈ ts → c ≠ sep)
    (hs : (∀ f ∈ s.done, sep ∉ f) ∧ sep ∉ s.cur) :
    (∀ f ∈ (ts.foldl lineStep s).done, sep ∉ f) ∧
      sep ∉ (ts.foldl lineStep s).cur := by
  induction ts generalizing s with
  | nil => exact hs
  | cons t ts ih =>
    refine ih (lineStep s t) (fun c hc => hts c (List.mem_cons_of_mem _ hc)) ?_
    exact lineStep_avoids sep hsp s t hs
      (fun c hc => hts c (hc ▸ List.mem_cons_self _ _))

/-- A resolved line whose final state avoids the separator yields a key and a
value that avoid it. -/
theorem resolveLine_avoids (sep : Char) (s : LineState) (key : List Char)
    (v : SuperValue) (hs : (∀ f ∈ s.done, sep ∉ f) ∧ sep ∉ s.cur)
    (h : resolveLine s = some (key, v)) :
    sep ∉ key ∧ valueAvoids sep v := by
  obtain ⟨-, ds, hd, hb⟩ := resolveLine_some_cases s key v h
  have hkey : sep ∉ key := hs.1 key (hd ▸ List.mem_cons_self _ _)
  have hvals : ∀ w ∈ ds ++ [s.cur], sep ∉ w := by
    intro w hw
    rcases List.mem_append.mp hw with hw | hw
    · exact hs.1 w (hd ▸ List.mem_cons_of_mem _ hw)
    · simp only [List.mem_singleton] at hw
      exact hw ▸ hs.2
  refine ⟨hkey, ?_⟩
  rcases buildValue_some_cases _ _ hb with ⟨w, hvw, rfl⟩ | ⟨rfl, -⟩
  · exact hvals w (by rw [hvw]; exact List.mem_singleton.mpr rfl)
  · exact hvals

/-! ## Claim theorems -/

/-- C1: the claim says an escaped `Seperator` appends a literal separator
character `c` for any custom separator.  The code instead appends the
hard-coded space `' '`: with separator `'>'`, the input `a\>b>c` yields the
key `"a b"` (space inserted) and not the key `"a>b"` the claim requires.
`ignore_special` is indeed cleared, but the appended character is wrong for
every non-space separator. -/
theorem C1_escape_appends_hardcoded_space :
    parse_custom_sep "a\\>b>c" '>' =
        Except.ok [(['a', ' ', 'b'], SuperValue.Single ['c'])] ∧
      parse_custom_sep "a\\>b>c" '>' ≠
        Except.ok [(['a', '>', 'b'], SuperValue.Single ['c'])] := by
  constructor
  · rfl
  · intro h
    have h₂ : parse_custom_sep "a\\>b>c" '>' =
        Except.ok [(['a', ' ', 'b'], SuperValue.Single ['c'])] := rfl
    rw [h₂] at h
    exact absurd ((Except.ok.injEq _ _).mp h) (by decide)

/-- C2 counterexample: a `Character` token does not clear `ignore_special`
(after `\a` the flag is still set), and this is observable end to end: in
`k\a b v` the space after the intervening `a` is still treated as escaped, so
the parse yields the single key `"ka b"` rather than treating that space as an
unescaped separator (which would have produced key `"ka"` with fields
`["b", "v"]`). -/
theorem C2_character_keeps_ignore_special :
    (List.foldl lineStep initState
        [TokenType.Backslash, TokenType.Character 'a']).ignore_special = true ∧
      parse_str "k\\a b v" =
        Except.ok [(['k', 'a', ' ', 'b'], SuperValue.Single ['v'])] ∧
      parse_str "k\\a b v" ≠
        Except.ok [(['k', 'a'], SuperValue.List [['b'], ['v']])] := by
  refine ⟨rfl, rfl, ?_⟩
  intro h
  have h₂ : parse_str "k\\a b v" =
      Except.ok [(['k', 'a', ' ', 'b'], SuperValue.Single ['v'])] := rfl
  rw [h₂] at h
  exact absurd ((Except.ok.injEq _ _).mp h) (by decide)

/-- C2 (amended): processing a `Character` token leaves `ignore_special`
unchanged, so a pending backslash keeps its effect across any run of ordinary
characters: on a live line with `ignore_special` set, a run of character
tokens followed by a `Seperator` appends those characters and then an escaped
space to the current field, clearing the flag only at the separator. -/
theorem C2_backslash_escape_persists (cs : List Char) (s : LineState)
    (hc : s.is_comment = false) (hi : s.ignore_special = true) :
    List.foldl lineStep s (cs.map TokenType.Character ++ [TokenType.Seperator]) =
      { s with cur := s.cur ++ cs ++ [' '], ignore_special := false } := by
  induction cs generalizing s with
  | nil =>
    simp only [List.map_nil, List.nil_append, List.foldl_cons, List.foldl_nil,
      List.append_nil]
    exact lineStep_sep_escaped s hc hi
  | cons c cs ih =>
    simp only [List.map_cons, List.cons_append, List.foldl_cons]
    rw [lineStep_character s c hc,
      ih { s with cur := s.cur ++ [c] } hc hi]
    simp [List.append_assoc]

/-- C2 witness: instantiating the amended claim at the state reached after
`k\` and the characters `ab` followed by a separator. -/
theorem C2_backslash_escape_persists_witness :
    List.foldl lineStep ⟨[], ['k'], true, false⟩
        (['a', 'b'].map TokenType.Character ++ [TokenType.Seperator]) =
      ⟨[], ['k', 'a', 'b', ' '], false, false⟩ :=
  C2_backslash_escape_persists ['a', 'b'] ⟨[], ['k'], true, false⟩ rfl rfl

/-- C3: a line resolving to a key that is already present aborts the whole
parse with `ElementExists` carrying the previously stored value, and in
particular `parse_str "k v\nk v2"` fails with `ElementExists (Single "v")`. -/
theorem C3_duplicate_key_aborts :
    (∀ (tl : List TokenType) (rest : List (List TokenType)) (output : ConfMap)
        (key : List Char) (v element : SuperValue),
        resolveLine (runLine tl) = some (key, v) →
        lookupMap output key = some element →
        parseLines (tl :: rest) output =
          Except.error (SuperError.ElementExists element)) ∧
      parse_str "k v\nk v2" =
        Except.error (SuperError.ElementExists (SuperValue.Single ['v'])) := by
  constructor
  · intro tl rest output key v element hres hlook
    simp only [parseLines, hres, hlook]
  · rfl

/-- C3 witness: the line `k v` against a map that already binds `k`. -/
theorem C3_duplicate_key_aborts_witness :
    parseLines [lexLine ' ' ['k', ' ', 'v']] [(['k'], SuperValue.Single ['v'])] =
      Except.error (SuperError.ElementExists (SuperValue.Single ['v'])) :=
  C3_duplicate_key_aborts.1 (lexLine ' ' ['k', ' ', 'v']) [] _ ['k']
    (SuperValue.Single ['v']) (SuperValue.Single ['v']) rfl rfl

/-- C4: any line containing `#` (when `#` is not the separator) is discarded
wholesale: it changes neither the output map nor the error behaviour of the
remaining lines, whatever was accumulated before the `#` and whatever
backslashes preceded it; in particular
`parse_str "my_key my_value # trailing comment"` is the empty map. -/
theorem C4_comment_discards_whole_line :
    (∀ (line : List Char) (sep : Char) (rest : List (List TokenType))
        (output : ConfMap),
        '#' ∈ line → sep ≠ '#' →
        parseLines (lexLine sep line :: rest) output = parseLines rest output) ∧
      parse_str "my_key my_value # trailing comment" = Except.ok [] := by
  constructor
  · intro line sep rest output hmem hsep
    have htok : TokenType.Comment ∈ lexLine sep line := by
      refine List.mem_map.mpr ⟨'#', hmem, ?_⟩
      simp [classifyChar, Ne.symm hsep]
    have hcom : (runLine (lexLine sep line)).is_comment = true :=
      foldl_comment_of_mem _ _ htok
    refine parseLines_skip _ _ _ ?_
    simp [resolveLine, hcom]
  · rfl

/-- C4 witness: a line whose second character is `#`, with the default
separator. -/
theorem C4_comment_discards_whole_line_witness :
    parseLines [lexLine ' ' ['k', '#']] [] = parseLines [] [] :=
  C4_comment_discards_whole_line.1 ['k', '#'] ' ' [] [] (by decide) (by decide)

/-- C5: post-line resolution.  Zero fields after the key build no value and
such a line (a bare key, e.g. a blank line) is skipped with no insertion and
no error; exactly one field builds `Single`; two or more build `List` of
exactly those fields in order. -/
theorem C5_post_line_resolution :
    buildValue [] = none ∧
      (∀ v, buildValue [v] = some (SuperValue.Single v)) ∧
      (∀ vs, 2 ≤ vs.length → buildValue vs = some (SuperValue.List vs)) ∧
      (∀ (s : LineState) (key : List Char), s.is_comment = false →
        s.done ++ [s.cur] = [key] → resolveLine s = none) ∧
      (∀ (tl : List TokenType) (rest : List (List TokenType))
        (output : ConfMap), resolveLine (runLine tl) = none →
        parseLines (tl :: rest) output = parseLines rest output) := by
  refine ⟨rfl, fun v => rfl, ?_, ?_, parseLines_skip⟩
  · intro vs h
    cases vs with
    | nil => cases h
    | cons a as =>
      cases as with
      | nil => simp at h
      | cons b bs => rfl
  · intro s key hc hbuf
    cases hd : s.done with
    | nil => simp [resolveLine, hc, hd, buildValue]
    | cons k ds =>
      rw [hd] at hbuf
      have hlen := congrArg List.length hbuf
      simp at hlen

/-- C5 witness: a two-field value builds a `List`, the bare key `k` resolves
to nothing, and the bare-key line is skipped by the line loop. -/
theorem C5_post_line_resolution_witness :
    buildValue [['a'], ['b']] = some (SuperValue.List [['a'], ['b']]) ∧
      resolveLine ⟨[], ['k'], false, false⟩ = none ∧
      parseLines [[TokenType.Character 'k']] [] = parseLines [] [] :=
  ⟨C5_post_line_resolution.2.2.1 [['a'], ['b']] (by decide),
    C5_post_line_resolution.2.2.2.1 ⟨[], ['k'], false, false⟩ ['k'] rfl rfl,
    C5_post_line_resolution.2.2.2.2 [TokenType.Character 'k'] [] [] rfl⟩

/-- C6: an unescaped separator seen while the current field is empty is a
no-op, hence any run of unescaped separators acts like a single one (and
leading separators act on an empty initial field), and no completed field of
a line is ever the empty string. -/
theorem C6_seperator_runs_collapse :
    (∀ s : LineState, s.is_comment = false → s.ignore_special = false →
        s.cur = [] → lineStep s TokenType.Seperator = s) ∧
      (∀ (n : Nat) (s : LineState), s.is_comment = false →
        s.ignore_special = false →
        List.foldl lineStep s (List.replicate (n + 1) TokenType.Seperator) =
          lineStep s TokenType.Seperator) ∧
      (∀ ts : List TokenType, ∀ f ∈ (runLine ts).done, f ≠ []) := by
  refine ⟨lineStep_sep_empty, ?_, ?_⟩
  · intro n
    induction n with
    | zero =>
      intro s _ _
      rfl
    | succ n ih =>
      intro s hc hi
      obtain ⟨h1, h2, h3⟩ := lineStep_sep_state s hc hi
      rw [List.replicate_succ, List.foldl_cons,
        ih (lineStep s TokenType.Seperator) h2 h3,
        lineStep_sep_empty _ h2 h3 h1]
  · intro ts
    exact foldl_done_nonempty ts initState (by simp [initState])

/-- C6 witness: a separator on an empty field is inert, three separators act
like one, and the completed field of the line `k` followed by a separator is
non-empty. -/
theorem C6_seperator_runs_collapse_witness :
    lineStep ⟨[['k']], [], false, false⟩ TokenType.Seperator =
        ⟨[['k']], [], false, false⟩ ∧
      List.foldl lineStep initState
          (List.replicate 3 TokenType.Seperator) =
        lineStep initState TokenType.Seperator ∧
      (['k'] : List Char) ≠ [] :=
  ⟨C6_seperator_runs_collapse.1 ⟨[['k']], [], false, false⟩ rfl rfl rfl,
    C6_seperator_runs_collapse.2.1 2 initState rfl rfl,
    C6_seperator_runs_collapse.2.2
      [TokenType.Character 'k', TokenType.Seperator] ['k'] (by decide)⟩

/-- C7: the string entry points can only fail with `ElementExists`; the
`NoKey` and `NoValue` error variants are unreachable for every input and
separator. -/
theorem C7_NoKey_NoValue_unreachable (conf : String) (seperator : Char) :
    parse_custom_sep conf seperator ≠ Except.error SuperError.NoKey ∧
      parse_custom_sep conf seperator ≠ Except.error SuperError.NoValue ∧
      parse_str conf ≠ Except.error SuperError.NoKey ∧
      parse_str conf ≠ Except.error SuperError.NoValue ∧
      parse_string conf ≠ Except.error SuperError.NoKey ∧
      parse_string conf ≠ Except.error SuperError.NoValue := by
  have h : ∀ (tls : List (List TokenType)) (out : ConfMap) (e : SuperError),
      (e = SuperError.NoKey ∨ e = SuperError.NoValue) →
      parseLines tls out ≠ Except.error e := by
    intro tls out e he heq
    obtain ⟨v, hv⟩ := parseLines_error_shape tls out e heq
    rcases he with rfl | rfl <;> cases hv
  exact ⟨h _ _ _ (Or.inl rfl), h _ _ _ (Or.inr rfl), h _ _ _ (Or.inl rfl),
    h _ _ _ (Or.inr rfl), h _ _ _ (Or.inl rfl), h _ _ _ (Or.inr rfl)⟩

/-- C8: every key of a successful parse is a non-empty string: a field is
completed only while non-empty, and only lines with at least one field after
the key insert anything, so the inserted key is a completed field. -/
theorem C8_keys_nonempty (conf : String) (seperator : Char) (m : ConfMap)
    (h : parse_custom_sep conf seperator = Except.ok m) :
    ∀ kv ∈ m, kv.1 ≠ [] :=
  parseLines_ok_keys _ [] m (by simp) h

/-- C8 witness: the key of `parse_custom_sep "k v" ' '` is non-empty. -/
theorem C8_keys_nonempty_witness : (['k'] : List Char) ≠ [] :=
  C8_keys_nonempty "k v" ' ' [(['k'], SuperValue.Single ['v'])] rfl
    (['k'], SuperValue.Single ['v']) (by decide)

/-- The line loop started from token lines free of the separator (as a plain
character) and an output map free of it keeps the separator out of every key
and value, as long as the separator is not the space the escape branch
hard-codes. -/
theorem parseLines_ok_avoids (sep : Char) (hsp : sep ≠ ' ')
    (tls : List (List TokenType)) (output m : ConfMap)
    (htls : ∀ tl ∈ tls, ∀ c, TokenType.Character c ∈ tl → c ≠ sep)
    (hout : ∀ kv ∈ output, sep ∉ kv.1 ∧ valueAvoids sep kv.2)
    (h : parseLines tls output = Except.ok m) :
    ∀ kv ∈ m, sep ∉ kv.1 ∧ valueAvoids sep kv.2 := by
  induction tls generalizing output with
  | nil =>
    simp only [parseLines, Except.ok.injEq] at h
    exact h ▸ hout
  | cons tl rest ih =>
    unfold parseLines at h
    split at h
    · exact ih output (fun tl₂ h₂ => htls tl₂ (List.mem_cons_of_mem _ h₂))
        hout h
    · rename_i key v heq
      split at h
      · cases h
      · refine ih _ (fun tl₂ h₂ => htls tl₂ (List.mem_cons_of_mem _ h₂)) ?_ h
        intro kv hkv
        rcases List.mem_append.mp hkv with hkv | hkv
        · exact hout kv hkv
        · simp only [List.mem_singleton] at hkv
          subst hkv
          have hstate := foldl_avoids sep hsp tl initState
            (htls tl (List.mem_cons_self _ _)) (by simp [initState])
          exact resolveLine_avoids sep (runLine tl) key v hstate heq

/-- C9: for every separator other than the space character, no key and no
value string of a successful parse contains the separator: the lexer turns
every occurrence into a `Seperator` token, and the escape branch inserts a
space, never the separator itself. -/
theorem C9_seperator_absent_from_output (conf : String) (sep : Char)
    (m : ConfMap) (hsp : sep ≠ ' ')
    (h : parse_custom_sep conf sep = Except.ok m) :
    ∀ kv ∈ m, sep ∉ kv.1 ∧ valueAvoids sep kv.2 := by
  refine parseLines_ok_avoids sep hsp _ [] m ?_ (by simp) h
  intro tl htl c hc
  rcases List.mem_map.mp htl with ⟨line, -, rfl⟩
  exact lexLine_char_ne sep line c hc

/-- C9 witness: with separator `'>'`, neither the key nor the value of
`parse_custom_sep "a>b" '>'` contains `'>'`. -/
theorem C9_seperator_absent_from_output_witness :
    '>' ∉ (['a'] : List Char) ∧ valueAvoids '>' (SuperValue.Single ['b']) :=
  C9_seperator_absent_from_output "a>b" '>' [(['a'], SuperValue.Single ['b'])]
    (by decide) rfl (['a'], SuperValue.Single ['b']) (by decide)

/-- C10: a single unescaped trailing separator right after a non-empty field
completes that field and leaves a trailing empty field that counts toward the
value shape; in particular `parse_str "k v "` maps `k` to
`List ["v", ""]`, not to `Single "v"`. -/
theorem C10_trailing_seperator_counts :
    (∀ ts : List TokenType, (runLine ts).is_comment = false →
        (runLine ts).ignore_special = false → (runLine ts).cur ≠ [] →
        runLine (ts ++ [TokenType.Seperator]) =
          { runLine ts with
            done := (runLine ts).done ++ [(runLine ts).cur], cur := [] }) ∧
      parse_str "k v " = Except.ok [(['k'], SuperValue.List [['v'], []])] := by
  constructor
  · intro ts hc hi hne
    unfold runLine
    simp only [List.foldl_append, List.foldl_cons, List.foldl_nil]
    exact lineStep_sep_push _ hc hi hne
  · rfl

/-- C10 witness: appending a trailing separator to the tokens of `k v`
completes the field `v` and opens an empty field. -/
theorem C10_trailing_seperator_counts_witness :
    runLine (lexLine ' ' ['k', ' ', 'v'] ++ [TokenType.Seperator]) =
      ⟨[['k'], ['v']], [], false, false⟩ :=
  C10_trailing_seperator_counts.1 (lexLine ' ' ['k', ' ', 'v']) rfl rfl
    (by decide)

end Superconf
